import Mathlib

/-!
Verification of the Employee-document-rag ingestion-and-retrieval pipeline.

The definitions below are a shallow embedding of the TypeScript sources:

* `src/app/lib/geminiEmbeddings.ts` — the Gemini REST embedding client
  (`GeminiEmbeddings.embedQuery`, `GeminiEmbeddings.embedDocuments`);
* `src/app/lib/ingestPdfs.ts` — the ingestion orchestrator (`ingestAllPdfs`),
  its tracker (ledger) helpers, deterministic vector IDs and batching;
* the query route (`POST /api/query`) — question validation, retrieval,
  context assembly and source deduplication.

Modelling conventions:

* Machine floats (`number[]` embedding vectors, similarity scores) carry no
  arithmetic in any property proved here, only lengths and identity, so
  vectors are modelled as `List Int`.
* External collaborators (Gemini HTTP endpoint, Pinecone, pdf-parse, the
  text splitter, the file system) are oracles passed in as explicit
  functions; the code under verification is everything the repository
  itself does with their results.
* JavaScript objects used as string-keyed maps (the tracker JSON, `Map`)
  are modelled as association lists with JavaScript update semantics:
  setting an existing key overwrites in place, a new key is appended.
  JavaScript `Map` iteration order (insertion order of keys, last value
  wins) is exactly this semantics.
* Thrown exceptions are modelled with `Except String`.
-/

/-! ## JavaScript-style keyed maps (objects and `Map`) -/

/-- Set `k` to `v` with JavaScript object/`Map` semantics: an existing key is
overwritten in place (key order kept), a fresh key is appended. -/
def jsSet {κ α : Type} [DecidableEq κ] (m : List (κ × α)) (k : κ) (v : α) :
    List (κ × α) :=
  if m.any (fun p => p.1 = k) then
    m.map (fun p => if p.1 = k then (k, v) else p)
  else
    m ++ [(k, v)]

/-- Property read `m[k]`: the first (and, for maps built by `jsSet`, only)
entry with key `k`. -/
def jsGet {κ α : Type} [DecidableEq κ] (m : List (κ × α)) (k : κ) : Option α :=
  (m.find? (fun p => p.1 = k)).map (fun p => p.2)

/-- `new Map(pairs)`: insert every pair left to right with `jsSet`. -/
def jsOfList {κ α : Type} [DecidableEq κ] (ps : List (κ × α)) : List (κ × α) :=
  ps.foldl (fun m p => jsSet m p.1 p.2) []

/-! ## JavaScript string primitives

`String.prototype` methods are modelled charwise over the character list of
the string (JavaScript strings are sequences of code units; none of the
claims depend on surrogate-pair subtleties).  Writing them over `List Char`
keeps them computable by kernel reduction. -/

/-- `s.replace(re, c)` for a single-character-class regex: map every
character. -/
def jsMapChars (f : Char → Char) (s : String) : String :=
  (s.data.map f).asString

/-- `s.trim()`: strip leading and trailing whitespace. -/
def jsTrim (s : String) : String :=
  (((s.data.dropWhile Char.isWhitespace).reverse.dropWhile
      Char.isWhitespace).reverse).asString

/-- `s.slice(0, n)`: the first `n` characters. -/
def jsTake (n : Nat) (s : String) : String :=
  (s.data.take n).asString

/-- Decidable equality for `Except`, needed so witnesses can evaluate
`embedQuery` results by `decide`. -/
instance {ε α : Type} [DecidableEq ε] [DecidableEq α] :
    DecidableEq (Except ε α) := fun x y =>
  match x, y with
  | .ok a, .ok b =>
    if h : a = b then isTrue (by rw [h])
    else isFalse (fun hc => h (Except.ok.inj hc))
  | .error a, .error b =>
    if h : a = b then isTrue (by rw [h])
    else isFalse (fun hc => h (Except.error.inj hc))
  | .ok _, .error _ => isFalse (fun hc => Except.noConfusion hc)
  | .error _, .ok _ => isFalse (fun hc => Except.noConfusion hc)

/-! ## Embedding client — `src/app/lib/geminiEmbeddings.ts` -/

/-- Shape of a structured Gemini error payload (`data.error`). -/
structure GeminiError where
  code : Nat
  message : String
  status : String
deriving DecidableEq, Repr

/-- The `embedding` field of the Gemini embedContent REST response. -/
structure GeminiEmbedding where
  values : List Int
deriving DecidableEq, Repr

/-- Parsed body of the Gemini embedContent REST response
(`EmbedContentResponse` in the source): both fields optional. -/
structure EmbedContentResponse where
  embedding : Option GeminiEmbedding
  error : Option GeminiError
deriving DecidableEq, Repr

/-- The fetch result: HTTP success flag and status (`res.ok`, `res.status`)
plus the parsed JSON body (`await res.json()`). -/
structure HttpResponse where
  ok : Bool
  status : Nat
  data : EmbedContentResponse
deriving DecidableEq, Repr

/-- The configured embedding client (fields of class `GeminiEmbeddings`). -/
structure GeminiEmbeddings where
  apiKey : String
  modelName : String
  outputDimensionality : Nat
deriving DecidableEq, Repr

/-- The `GeminiEmbeddings` constructor: `modelName` defaults to
`"gemini-embedding-001"` and `outputDimensionality` defaults to `1024`. -/
def GeminiEmbeddings.create (apiKey : String) (modelName : Option String)
    (outputDimensionality : Option Nat) : GeminiEmbeddings :=
  { apiKey := apiKey
    modelName := modelName.getD "gemini-embedding-001"
    outputDimensionality := outputDimensionality.getD 1024 }

/-- One embedContent request as assembled by `embedQuery`: the URL carries
the model name and key, the JSON body carries the text and the configured
`outputDimensionality`. -/
structure EmbedRequest where
  modelName : String
  apiKey : String
  text : String
  outputDimensionality : Nat
deriving DecidableEq, Repr

/-- The request `embedQuery` sends for `text`. -/
def mkEmbedRequest (g : GeminiEmbeddings) (text : String) : EmbedRequest :=
  { modelName := g.modelName
    apiKey := g.apiKey
    text := text
    outputDimensionality := g.outputDimensionality }

/-- The embedding provider as an oracle: what the `fetch` of a given request
returns. -/
def Provider : Type := EmbedRequest → HttpResponse

/-- `GeminiEmbeddings.embedQuery`: throw when the HTTP status is not
successful or the body carries a structured error; throw when the returned
vector is absent or has length zero; otherwise return the vector. -/
def embedQuery (g : GeminiEmbeddings) (provider : Provider) (text : String) :
    Except String (List Int) :=
  let res := provider (mkEmbedRequest g text)
  if !res.ok || res.data.error.isSome then
    .error ("Gemini embedContent failed (" ++ Nat.repr res.status ++ "): "
      ++ ((res.data.error.map (fun e => e.message)).getD "unknown error"))
  else
    match res.data.embedding with
    | none => .error ("Gemini embedContent returned an empty vector for: \""
        ++ jsTake 60 text ++ "\"")
    | some emb =>
      if emb.values.length = 0 then
        .error ("Gemini embedContent returned an empty vector for: \""
          ++ jsTake 60 text ++ "\"")
      else
        .ok emb.values

/-- The vector `embedQuery` yields on its success path (used to describe the
records a successful ingestion builds). -/
def embedOk (g : GeminiEmbeddings) (provider : Provider) (text : String) :
    List Int :=
  match embedQuery g provider text with
  | .ok v => v
  | .error _ => []

/-- `GeminiEmbeddings.embedDocuments`: embed sequentially, one document at a
time; the first failure aborts the batch.  Also returns the list of texts for
which an embedContent call was actually issued. -/
def embedDocuments (g : GeminiEmbeddings) (provider : Provider) :
    List String → Except String (List (List Int)) × List String
  | [] => (.ok [], [])
  | t :: ts =>
    match embedQuery g provider t with
    | .error e => (.error e, [t])
    | .ok v =>
      match embedDocuments g provider ts with
      | (.error e, calls) => (.error e, t :: calls)
      | (.ok vs, calls) => (.ok (v :: vs), t :: calls)

/-! ## Deterministic vector IDs — `ingestPdfs.ts` lines 169–180 -/

/-- The identifier-safe character set of the regex `[^a-zA-Z0-9-_]`. -/
def isSafeChar (c : Char) : Bool :=
  (Char.ofNat 97 ≤ c && c ≤ Char.ofNat 122) ||
  (Char.ofNat 65 ≤ c && c ≤ Char.ofNat 90) ||
  (Char.ofNat 48 ≤ c && c ≤ Char.ofNat 57) ||
  c = Char.ofNat 45 || c = Char.ofNat 95

/-- `name.replace(/[^a-zA-Z0-9-_]/g, "_")`: every character outside the safe
set becomes an underscore. -/
def sanitize (name : String) : String :=
  jsMapChars (fun c => if isSafeChar c then c else Char.ofNat 95) name

/-- The deterministic vector ID built at upsert time. -/
def vectorId (name : String) (idx : Nat) : String :=
  sanitize name ++ "-chunk-" ++ Nat.repr idx

/-! ## Vector records and batching — `ingestPdfs.ts` -/

/-- A metadata value: Pinecone metadata holds strings and numbers here. -/
inductive MetaVal where
  | s (v : String)
  | n (v : Nat)
deriving DecidableEq, Repr

/-- One Pinecone record as built at upsert time. -/
structure VectorRecord where
  id : String
  values : List Int
  metadata : List (String × MetaVal)
deriving DecidableEq, Repr

/-- The record built for chunk `idx` of document `name` (lines 169–180): note
the ingestion timestamp is stored under the key `"ingestedAt"`. -/
def mkRecord (name : String) (idx : Nat) (text : String) (v : List Int)
    (totalChunks : Nat) (ingestedAt : String) : VectorRecord :=
  { id := vectorId name idx
    values := v
    metadata := [("text", .s text), ("source", .s name),
      ("chunkIndex", .n idx), ("totalChunks", .n totalChunks),
      ("ingestedAt", .s ingestedAt)] }

/-- `batch.map((text, j) => ...)` with ids `i + j`: records for one batch of
(text, vector) pairs, global indices starting at `off`. -/
def mkRecords (name : String) (totalChunks : Nat) (ingestedAt : String) :
    Nat → List (String × List Int) → List VectorRecord
  | _, [] => []
  | off, (t, v) :: rest =>
    mkRecord name off t v totalChunks ingestedAt
      :: mkRecords name totalChunks ingestedAt (off + 1) rest

/-- `const BATCH_SIZE = 20`. -/
def BATCH_SIZE : Nat := 20

/-- The batch decomposition of the loop
`for (let i = 0; i < chunks.length; i += BATCH_SIZE)`, written with explicit
fuel so it reduces definitionally (fuel `l.length` always suffices). -/
def batchesAux : Nat → List String → List (List String)
  | 0, _ => []
  | _ + 1, [] => []
  | fuel + 1, c :: l =>
    (c :: l).take BATCH_SIZE :: batchesAux fuel ((c :: l).drop BATCH_SIZE)

/-- The successive `chunks.slice(i, i + BATCH_SIZE)` batches. -/
def batches (l : List String) : List (List String) :=
  batchesAux l.length l

/-! ## Ingestion orchestrator — `ingestPdfs.ts` `ingestAllPdfs` -/

/-- One tracker (ledger) entry, interface `IngestedFile` of the source.
`size` and `lastModified` mirror `stats.size` / `stats.mtimeMs`. -/
structure IngestedFile where
  filename : String
  size : Int
  lastModified : Int
  ingestedAt : String
  chunkCount : Nat
  pageCount : Nat
deriving DecidableEq, Repr

/-- The tracker JSON object, filename-keyed. -/
abbrev Tracker : Type := List (String × IngestedFile)

/-- The externally observable side effects of one ingestion run: each
embedContent call and each Pinecone upsert, tagged with the document that
caused it. -/
inductive Event where
  | embedCall (doc : String) (text : String)
  | upsertCall (doc : String) (records : List VectorRecord)
deriving DecidableEq, Repr

/-- The document an event belongs to. -/
def Event.doc : Event → String
  | .embedCall d _ => d
  | .upsertCall d _ => d

/-- The external collaborators of one ingestion run, as oracles keyed by
filename: `stat` is `fs.statSync` (size, mtimeMs), `extract` is
`readFileSync` plus `pdf-parse` `getText()` (text and page count, may throw),
`split` is the `RecursiveCharacterTextSplitter`, `provider` the Gemini
endpoint, `upsertResult` the outcome of the Pinecone upsert of the n-th batch
of a document, and `now` the `new Date().toISOString()` value. -/
structure IngestEnv where
  stat : String → Int × Int
  extract : String → Except String (String × Nat)
  split : String → List String
  provider : Provider
  upsertResult : String → Nat → Except String Unit
  now : String

/-- The filter of lines 97–102: a file is ingested when the tracker has no
record for it, or the recorded size or mtime differs from the current stat. -/
def shouldIngest (tracker : Tracker) (env : IngestEnv) (name : String) : Bool :=
  match jsGet tracker name with
  | none => true
  | some record =>
    record.size ≠ (env.stat name).1 || record.lastModified ≠ (env.stat name).2

/-- The embed-plus-upsert loop of lines 165–184 over the precomputed batch
list: per batch, embed the batch sequentially, build its records (global
indices continue across batches), upsert, and accumulate the upserted count;
any failure aborts the document.  The second component is the trace of
external calls made, in order. -/
def runBatches (g : GeminiEmbeddings) (env : IngestEnv) (name : String)
    (totalChunks : Nat) :
    Nat → Nat → List (List String) → Except String Nat × List Event
  | _, _, [] => (.ok 0, [])
  | bi, off, b :: bs =>
    match embedDocuments g env.provider b with
    | (.error e, calls) => (.error e, calls.map (Event.embedCall name))
    | (.ok vecs, calls) =>
      let records := mkRecords name totalChunks env.now off (b.zip vecs)
      let evs := calls.map (Event.embedCall name) ++ [Event.upsertCall name records]
      match env.upsertResult name bi with
      | .error e => (.error e, evs)
      | .ok _ =>
        match runBatches g env name totalChunks (bi + 1) (off + b.length) bs with
        | (r, evs2) => (r.map (fun m => records.length + m), evs ++ evs2)

/-- Outcome of one document inside the per-PDF loop: skipped with a warning
(no extractable text / zero chunks), fully ingested, or failed (the `catch`
of lines 200–205, which logs the error with the document name). -/
inductive DocOutcome where
  | noText
  | noChunks
  | ok (chunkCount : Nat) (pageCount : Nat)
  | failed (msg : String)
deriving DecidableEq, Repr

/-- The chunk list of a document: the splitter output with
whitespace-only chunks dropped (line 152–154). -/
def chunksOf (env : IngestEnv) (rawText : String) : List String :=
  (env.split rawText).filter (fun c => 0 < (jsTrim c).length)

/-- The body of the per-PDF loop (lines 135–206) for one document: extract,
check for empty text, split, check for zero chunks, then embed and upsert in
batches. -/
def processDoc (g : GeminiEmbeddings) (env : IngestEnv) (name : String) :
    DocOutcome × List Event :=
  match env.extract name with
  | .error e => (.failed e, [])
  | .ok (rawText, pageCount) =>
    if (jsTrim rawText).length = 0 then (.noText, [])
    else
      let chunks := chunksOf env rawText
      if chunks.length = 0 then (.noChunks, [])
      else
        match runBatches g env name chunks.length 0 0 (batches chunks) with
        | (.error e, evs) => (.failed e, evs)
        | (.ok upserted, evs) => (.ok upserted pageCount, evs)

/-- The tracker record written on full success (lines 187–195). -/
def mkIngested (env : IngestEnv) (name : String) (chunkCount pageCount : Nat) :
    IngestedFile :=
  { filename := name
    size := (env.stat name).1
    lastModified := (env.stat name).2
    ingestedAt := env.now
    chunkCount := chunkCount
    pageCount := pageCount }

/-- Accumulated state of one run: per-document outcomes in processing order,
the in-memory tracker, and the trace of external calls. -/
structure RunResult where
  outcomes : List (String × DocOutcome)
  tracker : Tracker
  events : List Event

/-- One iteration of the per-PDF loop: process the document, and only on the
`ok` outcome write its fresh tracker record (`tracker[name] = ...` followed by
`saveTracker`); every other outcome leaves the tracker untouched. -/
def ingestStep (g : GeminiEmbeddings) (env : IngestEnv) (acc : RunResult)
    (name : String) : RunResult :=
  { outcomes := acc.outcomes ++ [(name, (processDoc g env name).1)]
    tracker :=
      match (processDoc g env name).1 with
      | .ok chunkCount pageCount =>
        jsSet acc.tracker name (mkIngested env name chunkCount pageCount)
      | _ => acc.tracker
    events := acc.events ++ (processDoc g env name).2 }

/-- `ingestAllPdfs`: filter the candidate files against the tracker, then run
the per-PDF loop over the remaining ones.  The function is total: the run
always reaches its terminal state, whatever the per-document outcomes. -/
def ingestAllPdfs (g : GeminiEmbeddings) (env : IngestEnv)
    (pdfFiles : List String) (tracker0 : Tracker) : RunResult :=
  let toIngest := pdfFiles.filter (shouldIngest tracker0 env)
  toIngest.foldl (ingestStep g env) ⟨[], tracker0, []⟩

/-- All records handed to Pinecone in a trace, batch structure kept. -/
def upsertBatchesOf (evs : List Event) : List (List VectorRecord) :=
  evs.filterMap (fun e => match e with
    | .upsertCall _ rs => some rs
    | _ => none)

/-- The records a fully successful ingestion of `name` submits: one per
chunk, in order, with consecutive ids from index 0 and the vector the
provider returned for that chunk text. -/
def expectedRecords (g : GeminiEmbeddings) (env : IngestEnv) (name : String)
    (chunks : List String) : List VectorRecord :=
  mkRecords name chunks.length env.now 0
    (chunks.map (fun t => (t, embedOk g env.provider t)))

/-! ## Query route — `POST /api/query` -/

/-- The source descriptor shape `ChunkMetadata` as read by the query route:
note it reads the key `uploadedAt`, not `ingestedAt`. -/
structure SourceDesc where
  source : Option String
  chunkIndex : Option Nat
  uploadedAt : Option String
deriving DecidableEq, Repr

/-- One Pinecone query match; `metadata` may be absent. -/
structure QueryMatch where
  metadata : Option (List (String × MetaVal))
deriving DecidableEq, Repr

/-- Property read of metadata key `k` (JavaScript `metadata?.k`). -/
def metaGet (md : List (String × MetaVal)) (k : String) : Option MetaVal :=
  jsGet md k

/-- A string-valued metadata read. -/
def metaStr (md : List (String × MetaVal)) (k : String) : Option String :=
  match metaGet md k with
  | some (.s v) => some v
  | _ => none

/-- A number-valued metadata read. -/
def metaNum (md : List (String × MetaVal)) (k : String) : Option Nat :=
  match metaGet md k with
  | some (.n v) => some v
  | _ => none

/-- The source descriptor built from one match (lines 124–128 of the route):
`source`, `chunkIndex` and `uploadedAt` are read from the match metadata. -/
def descOf (m : QueryMatch) : SourceDesc :=
  match m.metadata with
  | none => { source := none, chunkIndex := none, uploadedAt := none }
  | some md =>
    { source := metaStr md "source"
      chunkIndex := metaNum md "chunkIndex"
      uploadedAt := metaStr md "uploadedAt" }

/-- Lines 130–133: `Array.from(new Map(sources.map(s => [s.source, s])).values())`. -/
def uniqueSourcesOf (ms : List QueryMatch) : List SourceDesc :=
  (jsOfList ((ms.map descOf).map (fun s => (s.source, s)))).map
    (fun p => p.2)

/-- Lines 89–92: chunk texts of the retrieved matches, empty ones dropped, joined with
the divider. -/
def contextOf (ms : List QueryMatch) : String :=
  String.intercalate "\n\n---\n\n"
    ((ms.map (fun m =>
      ((m.metadata.map (fun md => (metaStr md "text").getD "")).getD ""))).filter
      (fun t => t ≠ ""))

/-- Configuration flags checked by the route: whether each environment
variable is set. -/
structure QueryConfig where
  googleApiKey : Bool
  pineconeApiKey : Bool
  pineconeIndex : Bool
deriving DecidableEq, Repr

/-- The JSON reply of the route, together with its HTTP status.  Error
replies carry only `error`; success replies carry `answer`, `sources` and
`retrievedChunks` and are marked `success`. -/
structure ApiResponse where
  status : Nat
  success : Bool
  error : Option String
  answer : Option String
  sources : List SourceDesc
  retrievedChunks : Option Nat
deriving DecidableEq, Repr

/-- An HTTP 4xx/5xx JSON error reply of the route. -/
def errorResponse (status : Nat) (msg : String) : ApiResponse :=
  { status := status, success := false, error := some msg, answer := none,
    sources := [], retrievedChunks := none }

/-- The grounded-answer prompt of the route, exact text, with the retrieved
context and the trimmed question interpolated. -/
def promptOf (context question : String) : String :=
  "You are a friendly, knowledgeable assistant helping someone understand their documents. Think of yourself as a helpful colleague — warm, clear, and approachable.\n\nGuidelines:\n- Answer naturally and conversationally, like you\x27re chatting with a colleague.\n- Keep your answer grounded in the document context below — don\x27t make up facts.\n- You can use everyday language, contractions, and a light touch of personality.\n- If the answer has multiple parts, use short bullet points or numbered steps to keep it readable.\n- If the context genuinely doesn\x27t have the answer, say something like:   \"Hmm, I don\x27t see anything about that in the documents — could you rephrase, or is there another doc I should check?\"\n- Never sound robotic or list out raw text verbatim — always explain in your own words.\n\nContext from the documents:\n"
    ++ context ++ "\n\nQuestion: " ++ question ++ "\n\nAnswer:"

/-- The reply for zero retrieved matches (lines 78–86): an explicit no-content success,
not an error. -/
def noContentResponse : ApiResponse :=
  { status := 200, success := true,
    error := none,
    answer := some ("No relevant content was found in the uploaded documents. "
      ++ "Please upload a PDF first."),
    sources := [], retrievedChunks := some 0 }

/-- The `POST /api/query` handler: validate the question and configuration,
then branch on the match list the vector store returned; `generate` is the
black-box Gemini text generator. -/
def postQuery (cfg : QueryConfig) (question : Option String)
    (ms : List QueryMatch) (generate : String → String) : ApiResponse :=
  match question with
  | none => errorResponse 400 "A valid question string is required"
  | some q =>
    if jsTrim q = "" then
      errorResponse 400 "A valid question string is required"
    else if 2000 < (jsTrim q).length then
      errorResponse 400 "Question is too long (max 2000 characters)"
    else if !cfg.googleApiKey then
      errorResponse 500 "GOOGLE_API_KEY is not configured"
    else if !cfg.pineconeApiKey || !cfg.pineconeIndex then
      errorResponse 500 "Pinecone credentials are not configured"
    else if ms.length = 0 then
      noContentResponse
    else
      { status := 200, success := true, error := none,
        answer := some (generate (promptOf (contextOf ms) (jsTrim q))),
        sources := uniqueSourcesOf ms,
        retrievedChunks := some ms.length }

/-! ## Specification-side definition for the deduplication refinement

The spec states that deduplication keeps the FIRST (highest-similarity)
occurrence per filename; this definition follows those words so it can be
compared with `uniqueSourcesOf`, which embeds the code. -/

/-- Modelled from the spec: deduplicate descriptors on source filename,
keeping the first occurrence per filename. -/
def specDedupFirst (descs : List SourceDesc) : List SourceDesc :=
  descs.foldl
    (fun acc d => if acc.any (fun e => e.source = d.source) then acc
      else acc ++ [d]) []

/-! ## Concrete inputs used by witnesses and counterexamples -/

/-- Ingest-time metadata for a match of `src` at chunk index `idx`. -/
def exMeta (src : String) (idx : Nat) : List (String × MetaVal) :=
  (mkRecord src idx ("text-" ++ Nat.repr idx) [1] 2 "2026-01-01T00:00:00.000Z").metadata

/-- Two matches from `a.pdf` (chunks 0 and 1, descending similarity) and one
from `b.pdf`. -/
def exMatches : List QueryMatch :=
  [{ metadata := some (exMeta "a.pdf" 0) },
   { metadata := some (exMeta "a.pdf" 1) },
   { metadata := some (exMeta "b.pdf" 0) }]

/-- A client configured with the ingestion settings (dimension 1024). -/
def gEx : GeminiEmbeddings :=
  GeminiEmbeddings.create "key" (some "gemini-embedding-001") (some 1024)

/-- A successful HTTP response carrying the vector `vs`. -/
def okResp (vs : List Int) : HttpResponse :=
  { ok := true, status := 200,
    data := { embedding := some { values := vs }, error := none } }

/-- A provider that always answers with a (well-formed, 3-dimensional)
vector. -/
def provGood : Provider := fun _ => okResp [1, 2, 3]

/-- A provider that answers 200 OK but with a zero-length vector (the
degenerate reply the client must reject). -/
def provEmptyVec : Provider := fun _ => okResp []

/-- A provider that answers with a 1-dimensional vector although the request
asked for 1024 dimensions. -/
def provShort : Provider := fun _ => okResp [5]

/-- An environment in which one document extracts to two clean chunks and
every external call succeeds. -/
def envOkEx : IngestEnv :=
  { stat := fun _ => (10, 20)
    extract := fun _ => .ok ("alpha beta", 3)
    split := fun _ => ["alpha", "beta"]
    provider := provGood
    upsertResult := fun _ _ => .ok ()
    now := "2026-01-02T00:00:00.000Z" }

/-- The same environment except that the embedding provider returns a
zero-length vector, so embedding every chunk fails. -/
def envEmptyVecEx : IngestEnv :=
  { envOkEx with provider := provEmptyVec }

/-- A tracker record matching `envOkEx.stat` for `a.pdf` exactly. -/
def recUnchanged : IngestedFile :=
  { filename := "a.pdf", size := 10, lastModified := 20,
    ingestedAt := "2025-12-31T00:00:00.000Z", chunkCount := 2, pageCount := 3 }

/-- A tracker in which `a.pdf` is recorded as already ingested with the
current size and mtime. -/
def trackerUnchangedEx : Tracker := [("a.pdf", recUnchanged)]

/-- A stale tracker record for `doc.pdf` (size differs, so the file is
re-ingested). -/
def recPrior : IngestedFile :=
  { filename := "doc.pdf", size := 99, lastModified := 20,
    ingestedAt := "2025-12-31T00:00:00.000Z", chunkCount := 7, pageCount := 1 }

/-- A tracker holding only the stale `doc.pdf` record. -/
def trackerPriorEx : Tracker := [("doc.pdf", recPrior)]

/-! # Theorems -/

/-! ## Decimal representation: `Nat.repr` is injective -/

theorem toDigitsCore_shift (b : Nat) :
    ∀ (f n : Nat) (acc : List Char),
      Nat.toDigitsCore b f n acc = Nat.toDigitsCore b f n [] ++ acc := by
  intro f
  induction f with
  | zero => intro n acc; simp [Nat.toDigitsCore]
  | succ f ih =>
    intro n acc
    by_cases h : n / b = 0
    · simp [Nat.toDigitsCore, h]
    · simp only [Nat.toDigitsCore, h, if_false]
      rw [ih (n / b) (Nat.digitChar (n % b) :: acc),
        ih (n / b) [Nat.digitChar (n % b)]]
      simp

theorem toDigitsCore_fuel (b : Nat) (hb : 2 ≤ b) :
    ∀ (n f g : Nat), n < f → n < g →
      Nat.toDigitsCore b f n [] = Nat.toDigitsCore b g n [] := by
  intro n
  induction n using Nat.strong_induction_on with
  | _ n ih =>
    intro f g hf hg
    cases f with
    | zero => omega
    | succ f =>
      cases g with
      | zero => omega
      | succ g =>
        by_cases h : n / b = 0
        · simp [Nat.toDigitsCore, h]
        · simp only [Nat.toDigitsCore, h, if_false]
          rw [toDigitsCore_shift, toDigitsCore_shift b g]
          have hn : 0 < n := by
            rcases Nat.eq_zero_or_pos n with h0 | h0
            · exact absurd (by simp [h0]) h
            · exact h0
          have hdiv : n / b < n := Nat.div_lt_self hn (by omega)
          rw [ih (n / b) hdiv f g (by omega) (by omega)]

theorem toDigits_step (n : Nat) :
    Nat.toDigits 10 n =
      if n < 10 then [Nat.digitChar n]
      else Nat.toDigits 10 (n / 10) ++ [Nat.digitChar (n % 10)] := by
  by_cases h : n < 10
  · have hd : n / 10 = 0 := Nat.div_eq_of_lt h
    simp [Nat.toDigits, Nat.toDigitsCore, hd, Nat.mod_eq_of_lt h, h]
  · have hd : ¬ n / 10 = 0 := by
      intro h0
      have hdm := Nat.div_add_mod n 10
      have hml : n % 10 < 10 := Nat.mod_lt _ (by omega)
      omega
    have step : Nat.toDigits 10 n
        = Nat.toDigitsCore 10 n (n / 10) [Nat.digitChar (n % 10)] := by
      simp [Nat.toDigits, Nat.toDigitsCore, hd]
    rw [step, toDigitsCore_shift]
    have hn : 0 < n := by omega
    have hdiv : n / 10 < n := Nat.div_lt_self hn (by omega)
    rw [toDigitsCore_fuel 10 (by omega) (n / 10) n (n / 10 + 1) hdiv
      (Nat.lt_succ_self _)]
    simp [Nat.toDigits, h]

theorem toDigits_ne_nil (n : Nat) : Nat.toDigits 10 n ≠ [] := by
  rw [toDigits_step]
  by_cases h : n < 10 <;> simp [h]

theorem digitChar_inj_lt : ∀ a < 10, ∀ b < 10,
    Nat.digitChar a = Nat.digitChar b → a = b := by decide

theorem toDigits_injective :
    ∀ m n : Nat, Nat.toDigits 10 m = Nat.toDigits 10 n → m = n := by
  intro m
  induction m using Nat.strong_induction_on with
  | _ m ih =>
    intro n h
    rw [toDigits_step m, toDigits_step n] at h
    by_cases hm : m < 10 <;> by_cases hn : n < 10
    · simp only [hm, hn, if_true] at h
      exact digitChar_inj_lt m hm n hn (by simpa using h)
    · exfalso
      simp only [hm, hn, if_true, if_false] at h
      have hlen := congrArg List.length h
      simp only [List.length_append, List.length_cons, List.length_nil] at hlen
      have h0 : (Nat.toDigits 10 (n / 10)).length = 0 := by omega
      exact toDigits_ne_nil (n / 10) (List.length_eq_zero.mp h0)
    · exfalso
      simp only [hm, hn, if_true, if_false] at h
      have hlen := congrArg List.length h
      simp only [List.length_append, List.length_cons, List.length_nil] at hlen
      have h0 : (Nat.toDigits 10 (m / 10)).length = 0 := by omega
      exact toDigits_ne_nil (m / 10) (List.length_eq_zero.mp h0)
    · simp only [hm, hn, if_false] at h
      have hparts := List.append_inj' h (by simp)
      have hdiv : m / 10 = n / 10 :=
        ih (m / 10) (Nat.div_lt_self (by omega) (by omega)) (n / 10) hparts.1
      have hmod : m % 10 = n % 10 :=
        digitChar_inj_lt (m % 10) (Nat.mod_lt _ (by omega)) (n % 10)
          (Nat.mod_lt _ (by omega)) (by simpa using hparts.2)
      omega

theorem natRepr_injective : ∀ m n : Nat, Nat.repr m = Nat.repr n → m = n := by
  intro m n h
  exact toDigits_injective m n (congrArg String.data h)

/-! ## Vector-ID lemmas -/

theorem string_append_left_cancel {a b c : String} (h : a ++ b = a ++ c) :
    b = c := by
  have hd : a.data ++ b.data = a.data ++ c.data := by
    rw [← String.data_append, ← String.data_append, h]
  cases b
  cases c
  exact congrArg String.mk (List.append_cancel_left hd)

theorem vectorId_inj_index (name : String) {i j : Nat}
    (h : vectorId name i = vectorId name j) : i = j :=
  natRepr_injective i j (string_append_left_cancel h)

/-! ## JavaScript map lemmas -/

theorem find?_map_replace {κ α : Type} [DecidableEq κ] (m : List (κ × α))
    (k k2 : κ) (v : α) (hkk : k2 ≠ k) :
    (m.map (fun p => if p.1 = k then (k, v) else p)).find?
        (fun p => p.1 = k2)
      = m.find? (fun p => p.1 = k2) := by
  induction m with
  | nil => simp
  | cons p ps ih =>
    by_cases hp : p.1 = k
    · have h1 : ¬ ((k, v) : κ × α).1 = k2 := fun h => hkk h.symm
      have h2 : ¬ p.1 = k2 := fun h => hkk (h.symm.trans hp)
      simp only [List.map_cons, if_pos hp]
      rw [List.find?_cons_of_neg _ (by simpa using h1),
        List.find?_cons_of_neg _ (by simpa using h2)]
      exact ih
    · simp only [List.map_cons, if_neg hp]
      by_cases hq : p.1 = k2
      · rw [List.find?_cons_of_pos _ (by simpa using hq),
          List.find?_cons_of_pos _ (by simpa using hq)]
      · rw [List.find?_cons_of_neg _ (by simpa using hq),
          List.find?_cons_of_neg _ (by simpa using hq)]
        exact ih

theorem jsGet_jsSet_ne {κ α : Type} [DecidableEq κ] (m : List (κ × α))
    (k k2 : κ) (v : α) (hkk : k2 ≠ k) :
    jsGet (jsSet m k v) k2 = jsGet m k2 := by
  unfold jsGet jsSet
  by_cases h : m.any (fun p => p.1 = k)
  · rw [if_pos h, find?_map_replace m k k2 v hkk]
  · rw [if_neg h, List.find?_append]
    have hsing : (([((k : κ), v)]).find? (fun p => p.1 = k2)) = none := by
      rw [List.find?_eq_none]
      intro p hp
      simp only [List.mem_singleton] at hp
      subst hp
      simpa using fun h2 => hkk h2.symm
    rw [hsing]
    cases m.find? (fun p => p.1 = k2) <;> rfl

theorem jsGet_jsSet_self {κ α : Type} [DecidableEq κ] (m : List (κ × α))
    (k : κ) (v : α) :
    jsGet (jsSet m k v) k = some v := by
  unfold jsGet jsSet
  by_cases h : m.any (fun p => p.1 = k)
  · rw [if_pos h]
    induction m with
    | nil => simp at h
    | cons p ps ih =>
      by_cases hp : p.1 = k
      · simp [List.find?, hp]
      · simp only [List.map_cons, if_neg hp]
        rw [List.find?_cons_of_neg _ (by simpa using hp)]
        apply ih
        simp only [List.any_cons, Bool.or_eq_true] at h
        rcases h with h | h
        · exact absurd (by simpa using h) hp
        · exact h
  · rw [if_neg h, List.find?_append]
    have hnone : m.find? (fun p => p.1 = k) = none := by
      rw [List.find?_eq_none]
      intro p hp
      simp only [List.any_eq_true] at h
      exact fun hc => h ⟨p, hp, hc⟩
    rw [hnone]
    simp [List.find?]

theorem keys_jsSet {κ α : Type} [DecidableEq κ] (m : List (κ × α)) (k : κ)
    (v : α) :
    (jsSet m k v).map (fun p => p.1)
      = if m.any (fun p => p.1 = k) then m.map (fun p => p.1)
        else m.map (fun p => p.1) ++ [k] := by
  unfold jsSet
  by_cases h : m.any (fun p => p.1 = k)
  · rw [if_pos h, if_pos h, List.map_map]
    apply List.map_congr_left
    intro p _
    by_cases hp : p.1 = k <;> simp [hp]
  · rw [if_neg h, if_neg h]
    simp

theorem mem_jsSet {κ α : Type} [DecidableEq κ] (m : List (κ × α)) (k : κ)
    (v : α) (e : κ × α) (he : e ∈ jsSet m k v) :
    e = (k, v) ∨ (e ∈ m ∧ ¬ e.1 = k) := by
  unfold jsSet at he
  by_cases h : m.any (fun p => p.1 = k)
  · rw [if_pos h] at he
    rcases List.mem_map.mp he with ⟨p, hp, hfp⟩
    by_cases hpk : p.1 = k
    · left
      rw [if_pos hpk] at hfp
      exact hfp.symm
    · right
      rw [if_neg hpk] at hfp
      exact ⟨hfp ▸ hp, hfp ▸ hpk⟩
  · rw [if_neg h] at he
    rcases List.mem_append.mp he with he2 | he2
    · right
      refine ⟨he2, fun hc => ?_⟩
      simp only [List.any_eq_true] at h
      exact h ⟨e, he2, by simpa using hc⟩
    · left
      simpa using he2

theorem jsOfList_step {κ α : Type} [DecidableEq κ] (ps : List (κ × α))
    (q : κ × α) : jsOfList (ps ++ [q]) = jsSet (jsOfList ps) q.1 q.2 := by
  unfold jsOfList
  rw [List.foldl_append]
  rfl

theorem jsOfList_spec {κ α : Type} [DecidableEq κ] (ps : List (κ × α)) :
    ((jsOfList ps).map (fun p => p.1)).Nodup
    ∧ (∀ k, (k ∈ (jsOfList ps).map (fun p => p.1))
        ↔ k ∈ ps.map (fun p => p.1))
    ∧ (∀ e ∈ jsOfList ps, ps.reverse.find? (fun p => p.1 = e.1) = some e) := by
  induction ps using List.reverseRecOn with
  | nil => simp [jsOfList]
  | append_singleton ps q ih =>
    obtain ⟨ihnd, ihmem, ihlast⟩ := ih
    refine ⟨?_, ?_, ?_⟩
    · rw [jsOfList_step, keys_jsSet]
      by_cases h : (jsOfList ps).any (fun p => p.1 = q.1)
      · rw [if_pos h]
        exact ihnd
      · rw [if_neg h]
        rw [List.nodup_append]
        refine ⟨ihnd, List.nodup_singleton _, ?_⟩
        intro k hk
        simp only [List.any_eq_true] at h
        rcases List.mem_map.mp hk with ⟨p, hp, hpk⟩
        simp only [List.mem_singleton]
        intro hc
        exact h ⟨p, hp, by simp [hpk, hc]⟩
    · intro k
      rw [jsOfList_step, keys_jsSet]
      by_cases h : (jsOfList ps).any (fun p => p.1 = q.1)
      · rw [if_pos h]
        rw [List.map_append]
        simp only [List.mem_append, List.map_cons, List.map_nil,
          List.mem_singleton]
        constructor
        · intro hk
          exact Or.inl ((ihmem k).mp hk)
        · rintro (hk | hk)
          · exact (ihmem k).mpr hk
          · subst hk
            simp only [List.any_eq_true] at h
            obtain ⟨p, hp, hpk⟩ := h
            exact List.mem_map.mpr ⟨p, hp, by simpa using hpk⟩
      · rw [if_neg h]
        rw [List.map_append]
        simp only [List.mem_append, List.map_cons, List.map_nil,
          List.mem_singleton]
        constructor
        · rintro (hk | hk)
          · exact Or.inl ((ihmem k).mp hk)
          · exact Or.inr hk
        · rintro (hk | hk)
          · exact Or.inl ((ihmem k).mpr hk)
          · exact Or.inr hk
    · intro e he
      rw [jsOfList_step] at he
      rw [List.reverse_append]
      rcases mem_jsSet _ _ _ _ he with he2 | ⟨he2, hne⟩
      · subst he2
        simp [List.find?]
      · simp only [List.reverse_singleton, List.singleton_append]
        rw [List.find?_cons_of_neg _ (by simpa using fun hc => hne hc.symm)]
        exact ihlast e he2

/-! ## Batching lemmas -/

theorem batchesAux_flatten :
    ∀ (fuel : Nat) (l : List String), l.length ≤ fuel →
      (batchesAux fuel l).flatten = l := by
  intro fuel
  induction fuel with
  | zero =>
    intro l h
    have hl : l = [] := List.length_eq_zero.mp (by omega)
    subst hl
    rfl
  | succ f ih =>
    intro l h
    cases l with
    | nil => rfl
    | cons c rest =>
      simp only [batchesAux, List.flatten_cons]
      rw [ih _ (by simp only [List.length_drop, BATCH_SIZE, List.length_cons]; simp at h; omega)]
      exact List.take_append_drop _ _

theorem batchesAux_mem :
    ∀ (fuel : Nat) (l b : List String), b ∈ batchesAux fuel l →
      0 < b.length ∧ b.length ≤ BATCH_SIZE := by
  intro fuel
  induction fuel with
  | zero =>
    intro l b hb
    simp [batchesAux] at hb
  | succ f ih =>
    intro l b hb
    cases l with
    | nil => simp [batchesAux] at hb
    | cons c rest =>
      simp only [batchesAux, List.mem_cons] at hb
      rcases hb with hb | hb
      · subst hb
        constructor
        · simp [BATCH_SIZE]
        · exact List.length_take_le BATCH_SIZE (c :: rest)
      · exact ih _ b hb

theorem batches_flatten (l : List String) : (batches l).flatten = l :=
  batchesAux_flatten l.length l (Nat.le_refl _)

theorem batches_mem (l b : List String) (hb : b ∈ batches l) :
    0 < b.length ∧ b.length ≤ BATCH_SIZE :=
  batchesAux_mem l.length l b hb

/-! ## Record-construction lemmas -/

theorem mkRecords_length (name : String) (total : Nat) (now : String) :
    ∀ (k : Nat) (ps : List (String × List Int)),
      (mkRecords name total now k ps).length = ps.length := by
  intro k ps
  induction ps generalizing k with
  | nil => rfl
  | cons p ps ih => simp [mkRecords, ih]

theorem mkRecords_append (name : String) (total : Nat) (now : String) :
    ∀ (k : Nat) (ps qs : List (String × List Int)),
      mkRecords name total now k (ps ++ qs)
        = mkRecords name total now k ps
          ++ mkRecords name total now (k + ps.length) qs := by
  intro k ps
  induction ps generalizing k with
  | nil => intro qs; simp [mkRecords]
  | cons p ps ih =>
    intro qs
    simp only [List.cons_append, mkRecords, List.length_cons, List.append_eq]
    rw [ih (k + 1) qs]
    have harith : k + 1 + ps.length = k + (ps.length + 1) := by omega
    rw [harith]

theorem zip_self_map (l : List String) (f : String → List Int) :
    l.zip (l.map f) = l.map (fun t => (t, f t)) := by
  simpa using List.zip_map' id f l

/-! ## Embedding-loop lemmas -/

theorem embedDocuments_ok (g : GeminiEmbeddings) (provider : Provider) :
    ∀ (ts : List String) (vs : List (List Int)) (calls : List String),
      embedDocuments g provider ts = (.ok vs, calls) →
      vs = ts.map (embedOk g provider) ∧ calls = ts := by
  intro ts
  induction ts with
  | nil =>
    intro vs calls h
    simp only [embedDocuments, Prod.mk.injEq, Except.ok.injEq] at h
    obtain ⟨h1, h2⟩ := h
    subst h1
    subst h2
    simp
  | cons t ts ih =>
    intro vs calls h
    simp only [embedDocuments] at h
    cases he : embedQuery g provider t with
    | error e =>
      rw [he] at h
      simp at h
    | ok v =>
      rw [he] at h
      cases hrest : embedDocuments g provider ts with
      | mk r calls2 =>
        rw [hrest] at h
        cases r with
        | error e => simp at h
        | ok vs2 =>
          simp only [Prod.mk.injEq, Except.ok.injEq] at h
          obtain ⟨h1, h2⟩ := h
          obtain ⟨hv, hc⟩ := ih vs2 calls2 hrest
          subst h1
          subst h2
          constructor
          · simp [List.map_cons, embedOk, he, hv]
          · simp [hc]

/-! ## Upsert-loop lemmas -/

theorem upsertBatchesOf_append (evs1 evs2 : List Event) :
    upsertBatchesOf (evs1 ++ evs2)
      = upsertBatchesOf evs1 ++ upsertBatchesOf evs2 := by
  simp [upsertBatchesOf, List.filterMap_append]

theorem upsertBatchesOf_embeds (name : String) (calls : List String) :
    upsertBatchesOf (calls.map (Event.embedCall name)) = [] := by
  induction calls with
  | nil => rfl
  | cons c cs ih =>
    simp only [List.map_cons, upsertBatchesOf, List.filterMap_cons]
    exact ih

theorem upsertBatchesOf_single (name : String) (rs : List VectorRecord) :
    upsertBatchesOf [Event.upsertCall name rs] = [rs] := rfl

theorem runBatches_ok (g : GeminiEmbeddings) (env : IngestEnv) (name : String)
    (total : Nat) :
    ∀ (bs : List (List String)) (bi off n : Nat) (evs : List Event),
      runBatches g env name total bi off bs = (.ok n, evs) →
      n = bs.flatten.length
      ∧ (upsertBatchesOf evs).map List.length = bs.map List.length
      ∧ (upsertBatchesOf evs).flatten
          = mkRecords name total env.now off
              (bs.flatten.map (fun t => (t, embedOk g env.provider t))) := by
  intro bs
  induction bs with
  | nil =>
    intro bi off n evs h
    simp only [runBatches, Prod.mk.injEq, Except.ok.injEq] at h
    obtain ⟨h1, h2⟩ := h
    subst h1
    subst h2
    simp [upsertBatchesOf, mkRecords]
  | cons b bs ih =>
    intro bi off n evs h
    simp only [runBatches] at h
    cases he : embedDocuments g env.provider b with
    | mk r calls =>
      cases r with
      | error e =>
        rw [he] at h
        simp at h
      | ok vecs =>
        obtain ⟨hv, hc⟩ := embedDocuments_ok g env.provider b vecs calls he
        rw [hv, hc] at he
        rw [he] at h
        cases hu : env.upsertResult name bi with
        | error e =>
          rw [hu] at h
          simp at h
        | ok u =>
          rw [hu] at h
          cases hrec : runBatches g env name total (bi + 1) (off + b.length) bs with
          | mk r2 evs2 =>
            rw [hrec] at h
            cases r2 with
            | error e => simp [Except.map] at h
            | ok m =>
              simp only [Except.map, Prod.mk.injEq, Except.ok.injEq] at h
              obtain ⟨hn, hevs⟩ := h
              obtain ⟨ihn, ihlen, ihflat⟩ := ih (bi + 1) (off + b.length) m evs2 hrec
              rw [zip_self_map] at hn hevs
              have hreclen :
                  (mkRecords name total env.now off
                    (List.map (fun t => (t, embedOk g env.provider t)) b)).length
                    = b.length := by
                rw [mkRecords_length, List.length_map]
              refine ⟨?_, ?_, ?_⟩
              · rw [← hn, hreclen, ihn]
                simp
              · rw [← hevs, upsertBatchesOf_append, upsertBatchesOf_append,
                  upsertBatchesOf_embeds, upsertBatchesOf_single,
                  List.nil_append, List.singleton_append, List.map_cons,
                  hreclen, ihlen, List.map_cons]
              · rw [← hevs, upsertBatchesOf_append, upsertBatchesOf_append,
                  upsertBatchesOf_embeds, upsertBatchesOf_single,
                  List.nil_append, List.singleton_append, List.flatten_cons,
                  ihflat, List.flatten_cons, List.map_append,
                  mkRecords_append, List.length_map]

theorem runBatches_events (g : GeminiEmbeddings) (env : IngestEnv)
    (name : String) (total : Nat) :
    ∀ (bs : List (List String)) (bi off : Nat),
      ∀ e ∈ (runBatches g env name total bi off bs).2, Event.doc e = name := by
  intro bs
  induction bs with
  | nil =>
    intro bi off e he
    simp [runBatches] at he
  | cons b bs ih =>
    intro bi off e he
    simp only [runBatches] at he
    cases hed : embedDocuments g env.provider b with
    | mk r calls =>
      rw [hed] at he
      cases r with
      | error er =>
        simp only at he
        rcases List.mem_map.mp he with ⟨t, _, ht⟩
        rw [← ht]
        rfl
      | ok vecs =>
        cases hu : env.upsertResult name bi with
        | error er =>
          rw [hu] at he
          simp only at he
          rcases List.mem_append.mp he with he2 | he2
          · rcases List.mem_map.mp he2 with ⟨t, _, ht⟩
            rw [← ht]
            rfl
          · rcases List.mem_singleton.mp he2 with rfl
            rfl
        | ok u =>
          rw [hu] at he
          cases hrec : runBatches g env name total (bi + 1) (off + b.length) bs with
          | mk r2 evs2 =>
            rw [hrec] at he
            simp only at he
            rcases List.mem_append.mp he with he2 | he2
            · rcases List.mem_append.mp he2 with he3 | he3
              · rcases List.mem_map.mp he3 with ⟨t, _, ht⟩
                rw [← ht]
                rfl
              · rcases List.mem_singleton.mp he3 with rfl
                rfl
            · have := ih (bi + 1) (off + b.length) e
              rw [hrec] at this
              exact this he2

/-! ## Per-document lemmas -/

theorem processDoc_events (g : GeminiEmbeddings) (env : IngestEnv)
    (name : String) :
    ∀ e ∈ (processDoc g env name).2, Event.doc e = name := by
  intro e he
  unfold processDoc at he
  cases hx : env.extract name with
  | error e2 =>
    rw [hx] at he
    simp at he
  | ok tp =>
    rw [hx] at he
    cases tp with
    | mk rawText pageCount =>
      simp only at he
      by_cases ht : (jsTrim rawText).length = 0
      · rw [if_pos ht] at he
        simp at he
      · rw [if_neg ht] at he
        by_cases hcz : (chunksOf env rawText).length = 0
        · rw [if_pos hcz] at he
          simp at he
        · rw [if_neg hcz] at he
          cases hrb : runBatches g env name (chunksOf env rawText).length 0 0
              (batches (chunksOf env rawText)) with
          | mk r evs2 =>
            rw [hrb] at he
            have hall := runBatches_events g env name
              (chunksOf env rawText).length (batches (chunksOf env rawText)) 0 0 e
            rw [hrb] at hall
            cases r with
            | error er => exact hall he
            | ok m => exact hall he

theorem processDoc_ok_spec (g : GeminiEmbeddings) (env : IngestEnv)
    (name : String) (n p : Nat) (evs : List Event)
    (h : processDoc g env name = (.ok n p, evs)) :
    ∃ rawText, env.extract name = .ok (rawText, p)
      ∧ n = (chunksOf env rawText).length
      ∧ 0 < n
      ∧ (upsertBatchesOf evs).map List.length
          = (batches (chunksOf env rawText)).map List.length
      ∧ (upsertBatchesOf evs).flatten
          = expectedRecords g env name (chunksOf env rawText) := by
  unfold processDoc at h
  cases hx : env.extract name with
  | error e2 =>
    rw [hx] at h
    simp at h
  | ok tp =>
    rw [hx] at h
    cases tp with
    | mk rawText pageCount =>
      simp only at h
      by_cases ht : (jsTrim rawText).length = 0
      · rw [if_pos ht] at h
        simp at h
      · rw [if_neg ht] at h
        by_cases hcz : (chunksOf env rawText).length = 0
        · rw [if_pos hcz] at h
          simp at h
        · rw [if_neg hcz] at h
          cases hrb : runBatches g env name (chunksOf env rawText).length 0 0
              (batches (chunksOf env rawText)) with
          | mk r evs2 =>
            rw [hrb] at h
            cases r with
            | error er => simp at h
            | ok m =>
              simp only [Prod.mk.injEq, DocOutcome.ok.injEq] at h
              obtain ⟨⟨hm, hp⟩, hevs⟩ := h
              obtain ⟨h1, h2, h3⟩ := runBatches_ok g env name
                (chunksOf env rawText).length (batches (chunksOf env rawText))
                0 0 m evs2 hrb
              refine ⟨rawText, ?_, ?_, ?_, ?_, ?_⟩
              · rw [hp]
              · rw [← hm, h1, batches_flatten]
              · rw [← hm, h1, batches_flatten]
                omega
              · rw [← hevs]
                exact h2
              · rw [← hevs, h3, batches_flatten]
                rfl

/-! ## Run-level lemmas -/

theorem ingest_foldl_outcomes (g : GeminiEmbeddings) (env : IngestEnv) :
    ∀ (l : List String) (acc : RunResult),
      (l.foldl (ingestStep g env) acc).outcomes
        = acc.outcomes ++ l.map (fun d => (d, (processDoc g env d).1)) := by
  intro l
  induction l with
  | nil => intro acc; simp
  | cons d l ih =>
    intro acc
    rw [List.foldl_cons, ih]
    simp [ingestStep]

theorem ingest_foldl_events (g : GeminiEmbeddings) (env : IngestEnv) :
    ∀ (l : List String) (acc : RunResult),
      (l.foldl (ingestStep g env) acc).events
        = acc.events ++ (l.map (fun d => (processDoc g env d).2)).flatten := by
  intro l
  induction l with
  | nil => intro acc; simp
  | cons d l ih =>
    intro acc
    rw [List.foldl_cons, ih]
    simp [ingestStep]

theorem ingest_foldl_tracker_stable (g : GeminiEmbeddings) (env : IngestEnv)
    (name : String)
    (hno : ∀ n p, (processDoc g env name).1 ≠ .ok n p) :
    ∀ (l : List String) (acc : RunResult),
      jsGet (l.foldl (ingestStep g env) acc).tracker name
        = jsGet acc.tracker name := by
  intro l
  induction l with
  | nil => intro acc; rfl
  | cons d l ih =>
    intro acc
    rw [List.foldl_cons, ih]
    show jsGet (ingestStep g env acc d).tracker name = jsGet acc.tracker name
    unfold ingestStep
    by_cases hd : d = name
    · subst hd
      cases hout : (processDoc g env d).1 with
      | ok nn pp => exact absurd hout (hno nn pp)
      | noText => rfl
      | noChunks => rfl
      | failed msg => rfl
    · cases hout : (processDoc g env d).1 with
      | ok nn pp =>
        exact jsGet_jsSet_ne acc.tracker d name
          (mkIngested env d nn pp) (fun hc => hd hc.symm)
      | noText => rfl
      | noChunks => rfl
      | failed msg => rfl

theorem ingest_foldl_tracker_ok (g : GeminiEmbeddings) (env : IngestEnv)
    (name : String) (n p : Nat)
    (hok : (processDoc g env name).1 = .ok n p) :
    ∀ (l : List String) (acc : RunResult),
      (name ∈ l ∨ jsGet acc.tracker name = some (mkIngested env name n p)) →
      jsGet (l.foldl (ingestStep g env) acc).tracker name
        = some (mkIngested env name n p) := by
  intro l
  induction l with
  | nil =>
    intro acc h
    rcases h with h | h
    · cases h
    · exact h
  | cons d l ih =>
    intro acc h
    rw [List.foldl_cons]
    by_cases hd : d = name
    · subst hd
      apply ih
      right
      show jsGet (ingestStep g env acc d).tracker d
        = some (mkIngested env d n p)
      unfold ingestStep
      rw [hok]
      exact jsGet_jsSet_self _ _ _
    · apply ih
      rcases h with h | h
      · rcases List.mem_cons.mp h with h2 | h2
        · exact absurd h2.symm hd
        · exact Or.inl h2
      · right
        show jsGet (ingestStep g env acc d).tracker name
          = some (mkIngested env name n p)
        unfold ingestStep
        cases hout : (processDoc g env d).1 with
        | ok nn pp =>
          exact (jsGet_jsSet_ne acc.tracker d name
            (mkIngested env d nn pp) (fun hc => hd hc.symm)).trans h
        | noText => exact h
        | noChunks => exact h
        | failed msg => exact h

/-! ## Embedding-client characterization -/

theorem embedQuery_ok_val (g : GeminiEmbeddings) (provider : Provider)
    (text : String) (v : List Int)
    (h : embedQuery g provider text = .ok v) :
    v ≠ []
    ∧ (provider (mkEmbedRequest g text)).ok = true
    ∧ (provider (mkEmbedRequest g text)).data.error = none
    ∧ (provider (mkEmbedRequest g text)).data.embedding
        = some { values := v } := by
  unfold embedQuery at h
  by_cases hc : (!(provider (mkEmbedRequest g text)).ok
      || (provider (mkEmbedRequest g text)).data.error.isSome) = true
  · rw [if_pos hc] at h
    cases h
  · rw [if_neg hc] at h
    simp only [Bool.or_eq_true, Bool.not_eq_true', Option.isSome_iff_exists,
      not_or, not_exists] at hc
    obtain ⟨hok, herr⟩ := hc
    have hok2 : (provider (mkEmbedRequest g text)).ok = true := by
      cases hb : (provider (mkEmbedRequest g text)).ok
      · exact absurd hb hok
      · rfl
    have herrn : (provider (mkEmbedRequest g text)).data.error = none := by
      cases herr2 : (provider (mkEmbedRequest g text)).data.error with
      | none => rfl
      | some e => exact absurd herr2 (herr e)
    cases hemb : (provider (mkEmbedRequest g text)).data.embedding with
    | none =>
      rw [hemb] at h
      simp only at h
      cases h
    | some emb =>
      rw [hemb] at h
      simp only at h
      by_cases hlen : emb.values.length = 0
      · rw [if_pos hlen] at h
        cases h
      · rw [if_neg hlen] at h
        cases h
        exact ⟨fun hx => hlen (by rw [hx]; rfl), hok2, herrn, rfl⟩

theorem embedQuery_error_char (g : GeminiEmbeddings) (provider : Provider)
    (text : String) :
    (∃ e, embedQuery g provider text = .error e)
      ↔ ((provider (mkEmbedRequest g text)).ok = false
        ∨ (provider (mkEmbedRequest g text)).data.error ≠ none
        ∨ (provider (mkEmbedRequest g text)).data.embedding = none
        ∨ ∃ emb, (provider (mkEmbedRequest g text)).data.embedding = some emb
            ∧ emb.values = []) := by
  by_cases hc : (!(provider (mkEmbedRequest g text)).ok
      || (provider (mkEmbedRequest g text)).data.error.isSome) = true
  · have hend : ∃ e, embedQuery g provider text = .error e := by
      unfold embedQuery
      rw [if_pos hc]
      exact ⟨_, rfl⟩
    simp only [Bool.or_eq_true, Bool.not_eq_true', Option.isSome_iff_exists] at hc
    constructor
    · intro _
      rcases hc with hc | ⟨e, hc⟩
      · exact Or.inl hc
      · exact Or.inr (Or.inl (by simp [hc]))
    · intro _
      exact hend
  · have hcond := hc
    simp only [Bool.or_eq_true, Bool.not_eq_true', Option.isSome_iff_exists,
      not_or, not_exists] at hcond
    obtain ⟨hok, herr⟩ := hcond
    have hok2 : (provider (mkEmbedRequest g text)).ok = true := by
      cases hb : (provider (mkEmbedRequest g text)).ok
      · exact absurd hb hok
      · rfl
    have herrn : (provider (mkEmbedRequest g text)).data.error = none := by
      cases herr2 : (provider (mkEmbedRequest g text)).data.error with
      | none => rfl
      | some e => exact absurd herr2 (herr e)
    cases hemb : (provider (mkEmbedRequest g text)).data.embedding with
    | none =>
      have hend : ∃ e, embedQuery g provider text = .error e := by
        unfold embedQuery
        rw [if_neg hc, hemb]
        exact ⟨_, rfl⟩
      constructor
      · intro _
        exact Or.inr (Or.inr (Or.inl rfl))
      · intro _
        exact hend
    | some emb =>
      by_cases hlen : emb.values.length = 0
      · have hend : ∃ e, embedQuery g provider text = .error e := by
          unfold embedQuery
          rw [if_neg hc, hemb]
          simp only
          rw [if_pos hlen]
          exact ⟨_, rfl⟩
        constructor
        · intro _
          exact Or.inr (Or.inr (Or.inr
            ⟨emb, rfl, List.length_eq_zero.mp hlen⟩))
        · intro _
          exact hend
      · have hend : embedQuery g provider text = .ok emb.values := by
          unfold embedQuery
          rw [if_neg hc, hemb]
          simp only
          rw [if_neg hlen]
        constructor
        · rintro ⟨e, he⟩
          rw [hend] at he
          cases he
        · rintro (h | h | h | ⟨emb2, hemb2, hv2⟩)
          · rw [hok2] at h
            cases h
          · exact absurd herrn h
          · cases h
          · rw [Option.some.injEq] at hemb2
            rw [← hemb2] at hv2
            exact absurd (by rw [hv2]; rfl) hlen

/-! ## Source-deduplication lemmas -/

theorem mem_uniqueSourcesOf (ms : List QueryMatch) (d : SourceDesc)
    (hd : d ∈ uniqueSourcesOf ms) : ∃ m ∈ ms, descOf m = d := by
  unfold uniqueSourcesOf at hd
  rcases List.mem_map.mp hd with ⟨e, he, hed⟩
  obtain ⟨-, -, hlast⟩ :=
    jsOfList_spec ((ms.map descOf).map (fun s => (s.source, s)))
  have hfind := hlast e he
  have hmem := List.mem_of_find?_eq_some hfind
  rw [List.mem_reverse] at hmem
  rcases List.mem_map.mp hmem with ⟨s, hs, hse⟩
  rcases List.mem_map.mp hs with ⟨m, hm, hms⟩
  refine ⟨m, hm, ?_⟩
  rw [hms]
  rw [← hed, ← hse]

theorem uniqueSourcesOf_keys (ms : List QueryMatch) :
    (uniqueSourcesOf ms).map (fun d => d.source)
      = (jsOfList ((ms.map descOf).map (fun s => (s.source, s)))).map
          (fun p => p.1) := by
  unfold uniqueSourcesOf
  rw [List.map_map]
  apply List.map_congr_left
  intro e he
  obtain ⟨-, -, hlast⟩ :=
    jsOfList_spec ((ms.map descOf).map (fun s => (s.source, s)))
  have hfind := hlast e he
  have hmem := List.mem_of_find?_eq_some hfind
  rw [List.mem_reverse] at hmem
  rcases List.mem_map.mp hmem with ⟨s, _, hse⟩
  rw [← hse]
  rfl

theorem uniqueSourcesOf_nodup (ms : List QueryMatch) :
    ((uniqueSourcesOf ms).map (fun d => d.source)).Nodup := by
  rw [uniqueSourcesOf_keys]
  exact (jsOfList_spec _).1

theorem uniqueSourcesOf_mem_iff (ms : List QueryMatch) (k : Option String) :
    k ∈ (uniqueSourcesOf ms).map (fun d => d.source)
      ↔ k ∈ (ms.map descOf).map (fun d => d.source) := by
  rw [uniqueSourcesOf_keys]
  have h := (jsOfList_spec ((ms.map descOf).map (fun s => (s.source, s)))).2.1 k
  rw [h, List.map_map]
  rfl

theorem uniqueSourcesOf_last (ms : List QueryMatch) (d : SourceDesc)
    (hd : d ∈ uniqueSourcesOf ms) :
    (ms.map descOf).reverse.find? (fun e => e.source = d.source) = some d := by
  unfold uniqueSourcesOf at hd
  rcases List.mem_map.mp hd with ⟨e, he, hed⟩
  obtain ⟨-, -, hlast⟩ :=
    jsOfList_spec ((ms.map descOf).map (fun s => (s.source, s)))
  have hfind := hlast e he
  have hkey : e.1 = d.source := by
    have hmem := List.mem_of_find?_eq_some hfind
    rw [List.mem_reverse] at hmem
    rcases List.mem_map.mp hmem with ⟨s, _, hse⟩
    rw [← hed, ← hse]
  rw [← List.map_reverse, List.find?_map] at hfind
  rw [hkey] at hfind
  have hcomp : ((fun (p : Option String × SourceDesc) =>
        decide (p.1 = d.source)) ∘ (fun s => (s.source, s)))
      = (fun (e : SourceDesc) => decide (e.source = d.source)) := rfl
  rw [hcomp] at hfind
  cases hf2 : (ms.map descOf).reverse.find?
      (fun e => e.source = d.source) with
  | none =>
    rw [hf2] at hfind
    cases hfind
  | some s0 =>
    rw [hf2] at hfind
    have h3 : ((s0.source, s0) : Option String × SourceDesc) = e :=
      Option.some.inj hfind
    rw [← hed, ← h3]

/-! ## Record-content lemmas -/

theorem mkRecords_ids (name : String) (total : Nat) (now : String) :
    ∀ (k : Nat) (ps : List (String × List Int)),
      (mkRecords name total now k ps).map (fun r => r.id)
        = (List.range ps.length).map (fun j => vectorId name (k + j)) := by
  intro k ps
  induction ps generalizing k with
  | nil => rfl
  | cons p ps ih =>
    simp only [mkRecords, List.map_cons, List.length_cons,
      List.range_succ_eq_map, List.map_map]
    congr 1
    rw [ih (k + 1)]
    apply List.map_congr_left
    intro j _
    show vectorId name (k + 1 + j) = vectorId name (k + (j + 1))
    congr 1
    omega

theorem mkRecords_texts (name : String) (total : Nat) (now : String) :
    ∀ (k : Nat) (ps : List (String × List Int)),
      (mkRecords name total now k ps).map
          (fun r => metaStr r.metadata "text")
        = ps.map (fun q => some q.1) := by
  intro k ps
  induction ps generalizing k with
  | nil => rfl
  | cons p ps ih =>
    simp only [mkRecords, List.map_cons]
    congr 1
    exact ih (k + 1)

/-! ## Query-route reduction -/

theorem postQuery_success (cfg : QueryConfig) (q : String)
    (ms : List QueryMatch) (generate : String → String)
    (hg : cfg.googleApiKey = true) (hpk : cfg.pineconeApiKey = true)
    (hpi : cfg.pineconeIndex = true)
    (hq1 : ¬ jsTrim q = "") (hq2 : ¬ 2000 < (jsTrim q).length)
    (hms : ms ≠ []) :
    postQuery cfg (some q) ms generate
      = { status := 200, success := true, error := none,
          answer := some (generate (promptOf (contextOf ms) (jsTrim q))),
          sources := uniqueSourcesOf ms,
          retrievedChunks := some ms.length } := by
  unfold postQuery
  simp only []
  rw [if_neg hq1, if_neg hq2, if_neg (by simp [hg]),
    if_neg (by simp [hpk, hpi]),
    if_neg (by simp [List.length_eq_zero, hms])]

/-! ## Skip-check lemmas -/

theorem shouldIngest_false_iff (tracker : Tracker) (env : IngestEnv)
    (name : String) :
    shouldIngest tracker env name = false
      ↔ ∃ r, jsGet tracker name = some r
          ∧ r.size = (env.stat name).1
          ∧ r.lastModified = (env.stat name).2 := by
  unfold shouldIngest
  cases hg : jsGet tracker name with
  | none => simp
  | some r =>
    simp only [Bool.or_eq_false_iff, decide_eq_false_iff_not, not_not,
      Option.some.injEq]
    constructor
    · rintro ⟨h1, h2⟩
      exact ⟨r, rfl, h1, h2⟩
    · rintro ⟨r2, hr2, h1, h2⟩
      cases hr2
      exact ⟨h1, h2⟩

theorem ingest_events_docs (g : GeminiEmbeddings) (env : IngestEnv)
    (pdfFiles : List String) (tracker0 : Tracker) :
    ∀ e ∈ (ingestAllPdfs g env pdfFiles tracker0).events,
      ∃ d ∈ pdfFiles.filter (shouldIngest tracker0 env), Event.doc e = d := by
  intro e he
  unfold ingestAllPdfs at he
  rw [ingest_foldl_events] at he
  simp only [List.nil_append] at he
  rcases List.mem_flatten.mp he with ⟨evs, hevs, hee⟩
  rcases List.mem_map.mp hevs with ⟨d, hd, hde⟩
  refine ⟨d, hd, ?_⟩
  rw [← hde] at hee
  exact processDoc_events g env d e hee

/-! # Claims -/

/-- C1 (corrected): the claim asserts collision-freedom across all
(filename, chunkIndex) pairs, but sanitization maps distinct filenames to
the same identifier stem: `"a.b.pdf"` and `"a_b.pdf"` both sanitize to
`"a_b_pdf"`, so their chunk-0 records share one ID even though the pairs
differ. -/
theorem C1_counterexample :
    vectorId "a.b.pdf" 0 = vectorId "a_b.pdf" 0
    ∧ (("a.b.pdf", 0) : String × Nat) ≠ ("a_b.pdf", 0) := by
  constructor
  · decide
  · decide

/-- C1 (amended): the identifier built at upsert time equals
`sanitize(filename) + "-chunk-" + index` and is a pure function of the
(filename, chunkIndex) pair — it does not depend on the chunk text, the
vector, the total chunk count or the ingestion timestamp, so re-ingesting
the same document with the same chunking reproduces the same identifiers;
for a fixed filename, distinct chunk indices always yield distinct
identifiers.  (Distinct filenames can collide after sanitization — see the
counterexample.) -/
theorem C1_vector_id_formula (name : String) (idx j : Nat) (text : String)
    (v : List Int) (total : Nat) (ts : String) :
    (mkRecord name idx text v total ts).id
        = sanitize name ++ "-chunk-" ++ Nat.repr idx
    ∧ (idx ≠ j → vectorId name idx ≠ vectorId name j) :=
  ⟨rfl, fun hne heq => hne (vectorId_inj_index name heq)⟩

/-- Witness for C1 at a concrete record. -/
theorem C1_witness :
    (mkRecord "a.pdf" 0 "t" [1] 2 "ts").id
        = sanitize "a.pdf" ++ "-chunk-" ++ Nat.repr 0
    ∧ vectorId "a.pdf" 0 ≠ vectorId "a.pdf" 1 :=
  ⟨(C1_vector_id_formula "a.pdf" 0 1 "t" [1] 2 "ts").1,
   (C1_vector_id_formula "a.pdf" 0 1 "t" [1] 2 "ts").2 (by decide)⟩

/-- C2 (confirmed): whenever a document's pass does not reach the `ok`
outcome — extraction threw, no text, no chunks, an embedding call threw
(e.g. because the provider returned a zero-length vector), or an upsert
threw — the run leaves the ledger entry for that document exactly as it
was: nothing is written or updated for a partially ingested document. -/
theorem C2_ledger_unchanged_on_failure (g : GeminiEmbeddings)
    (env : IngestEnv) (pdfFiles : List String) (tracker0 : Tracker)
    (name : String)
    (hfail : ∀ n p, (processDoc g env name).1 ≠ .ok n p) :
    jsGet (ingestAllPdfs g env pdfFiles tracker0).tracker name
      = jsGet tracker0 name := by
  unfold ingestAllPdfs
  exact ingest_foldl_tracker_stable g env name hfail _ _

/-- Witness for C2: the provider returns a zero-length vector, embedding
the first chunk throws, and the stale ledger record of `doc.pdf` is left
untouched by the run. -/
theorem C2_witness :
    jsGet (ingestAllPdfs gEx envEmptyVecEx ["doc.pdf"]
        trackerPriorEx).tracker "doc.pdf"
      = some recPrior := by
  have happ := C2_ledger_unchanged_on_failure gEx envEmptyVecEx ["doc.pdf"]
    trackerPriorEx "doc.pdf"
    (by
      intro n p h
      have hx : (processDoc gEx envEmptyVecEx "doc.pdf").1
          = .failed ("Gemini embedContent returned an empty vector for: \""
            ++ "alpha" ++ "\"") := by decide
      rw [hx] at h
      exact DocOutcome.noConfusion h)
  rw [happ]
  decide

/-- C3 (confirmed): the run's outcome list is exactly one entry per
candidate document (in order), and each document's outcome is a function of
that document's own data alone — a failure (recorded as `.failed` with the
document's name) never aborts the run or changes how the remaining
documents are processed, and the fold always reaches its terminal state. -/
theorem C3_per_document_isolation (g : GeminiEmbeddings) (env : IngestEnv)
    (pdfFiles : List String) (tracker0 : Tracker) :
    (ingestAllPdfs g env pdfFiles tracker0).outcomes
      = (pdfFiles.filter (shouldIngest tracker0 env)).map
          (fun d => (d, (processDoc g env d).1)) := by
  unfold ingestAllPdfs
  rw [ingest_foldl_outcomes]
  rfl

/-- C4 (corrected): the claim says each deduplicated source entry carries
the metadata of the FIRST (highest-similarity) match per filename, but
`new Map(...)` keeps the LAST value written per key: on two `a.pdf` matches
(chunks 0 then 1, descending similarity) plus one `b.pdf` match, the route
returns the `a.pdf` entry with chunk index 1, not 0 — the first-occurrence
deduplication the spec describes would return chunk index 0. -/
theorem C4_counterexample :
    uniqueSourcesOf exMatches
        = [{ source := some "a.pdf", chunkIndex := some 1, uploadedAt := none },
           { source := some "b.pdf", chunkIndex := some 0, uploadedAt := none }]
    ∧ specDedupFirst (exMatches.map descOf)
        = [{ source := some "a.pdf", chunkIndex := some 0, uploadedAt := none },
           { source := some "b.pdf", chunkIndex := some 0, uploadedAt := none }]
    ∧ uniqueSourcesOf exMatches ≠ specDedupFirst (exMatches.map descOf) := by
  refine ⟨by decide, by decide, by decide⟩

/-- C4 (amended): the source list the route returns is the deduplication of
the match descriptors on source filename — exactly one entry per distinct
source value (keys are distinct, and a filename appears among the entries
iff one of the matches carries it), entries ordered by first occurrence —
but each entry carries the metadata of the LAST (lowest-similarity) match
with that filename; in particular two `a.pdf` matches plus one `b.pdf`
match still yield exactly two entries. -/
theorem C4_source_dedup (cfg : QueryConfig) (q : String)
    (ms : List QueryMatch) (generate : String → String)
    (hg : cfg.googleApiKey = true) (hpk : cfg.pineconeApiKey = true)
    (hpi : cfg.pineconeIndex = true)
    (hq1 : ¬ jsTrim q = "") (hq2 : ¬ 2000 < (jsTrim q).length)
    (hms : ms ≠ []) :
    (postQuery cfg (some q) ms generate).sources = uniqueSourcesOf ms
    ∧ ((uniqueSourcesOf ms).map (fun d => d.source)).Nodup
    ∧ (∀ k, k ∈ (uniqueSourcesOf ms).map (fun d => d.source)
        ↔ k ∈ (ms.map descOf).map (fun d => d.source))
    ∧ (∀ d ∈ uniqueSourcesOf ms,
        (ms.map descOf).reverse.find? (fun e => e.source = d.source)
          = some d) := by
  refine ⟨?_, uniqueSourcesOf_nodup ms, uniqueSourcesOf_mem_iff ms,
    uniqueSourcesOf_last ms⟩
  rw [postQuery_success cfg q ms generate hg hpk hpi hq1 hq2 hms]

/-- Witness for C4 on the two-`a.pdf`-plus-one-`b.pdf` example. -/
theorem C4_witness :
    (postQuery ⟨true, true, true⟩ (some "q") exMatches
        (fun _ => "ans")).sources
      = uniqueSourcesOf exMatches
    ∧ ((uniqueSourcesOf exMatches).map (fun d => d.source)).Nodup
    ∧ (uniqueSourcesOf exMatches).length = 2 := by
  have h := C4_source_dedup ⟨true, true, true⟩ "q" exMatches
    (fun _ => "ans") rfl rfl rfl (by decide) (by decide) (by decide)
  exact ⟨h.1, h.2.1, by decide⟩

/-- C5 (confirmed): a document is skipped exactly when a ledger record
exists for it whose stored size and mtime both equal the current stat (so
it is re-ingested exactly when no record exists or either differs), and a
skipped document generates no external calls at all in the run — zero
embedContent calls and zero Pinecone upserts are tagged with its name. -/
theorem C5_unchanged_skip (g : GeminiEmbeddings) (env : IngestEnv)
    (pdfFiles : List String) (tracker0 : Tracker) (name : String) :
    (shouldIngest tracker0 env name = false
      ↔ ∃ r, jsGet tracker0 name = some r
          ∧ r.size = (env.stat name).1
          ∧ r.lastModified = (env.stat name).2)
    ∧ (shouldIngest tracker0 env name = false →
        ∀ e ∈ (ingestAllPdfs g env pdfFiles tracker0).events,
          Event.doc e ≠ name) := by
  refine ⟨shouldIngest_false_iff tracker0 env name, ?_⟩
  intro hskip e he
  rcases ingest_events_docs g env pdfFiles tracker0 e he with ⟨d, hd, hde⟩
  rw [hde]
  intro hdn
  subst hdn
  rw [List.mem_filter, hskip] at hd
  cases hd.2

/-- Witness for C5: `a.pdf` is recorded with the current size and mtime, so
the run skips it and performs no external calls at all. -/
theorem C5_witness :
    shouldIngest trackerUnchangedEx envOkEx "a.pdf" = false
    ∧ (ingestAllPdfs gEx envOkEx ["a.pdf"] trackerUnchangedEx).events
        = [] := by
  have h := C5_unchanged_skip gEx envOkEx ["a.pdf"] trackerUnchangedEx "a.pdf"
  exact ⟨h.1.mpr ⟨recUnchanged, by decide, by decide, by decide⟩, by decide⟩

/-- C6 (confirmed): `embedQuery` throws exactly when the HTTP reply is not
successful, or the body carries a structured error payload, or the vector
is absent or zero-length; in every other case it returns the provider's
vector unchanged — a degenerate empty vector is never silently returned. -/
theorem C6_embed_error_iff (g : GeminiEmbeddings) (provider : Provider)
    (text : String) :
    ((∃ e, embedQuery g provider text = .error e)
      ↔ ((provider (mkEmbedRequest g text)).ok = false
        ∨ (provider (mkEmbedRequest g text)).data.error ≠ none
        ∨ (provider (mkEmbedRequest g text)).data.embedding = none
        ∨ ∃ emb, (provider (mkEmbedRequest g text)).data.embedding = some emb
            ∧ emb.values = []))
    ∧ (∀ v, embedQuery g provider text = .ok v →
        (provider (mkEmbedRequest g text)).data.embedding
            = some { values := v }
          ∧ v ≠ []) :=
  ⟨embedQuery_error_char g provider text,
   fun v h => ⟨(embedQuery_ok_val g provider text v h).2.2.2,
     (embedQuery_ok_val g provider text v h).1⟩⟩

/-- Witness for C6: a well-formed reply is passed through unchanged. -/
theorem C6_witness :
    (provGood (mkEmbedRequest gEx "hi")).data.embedding
        = some { values := [1, 2, 3] }
    ∧ ([1, 2, 3] : List Int) ≠ [] :=
  (C6_embed_error_iff gEx provGood "hi").2 [1, 2, 3] (by decide)

/-- C7 (corrected): the claim says a successful `embedQuery` always returns
a vector of the configured output dimension, but the client never checks
the response length: with the default 1024-dimension configuration, a
provider reply carrying a 1-element vector succeeds and returns length 1. -/
theorem C7_counterexample :
    gEx.outputDimensionality = 1024
    ∧ embedQuery gEx provShort "hello" = .ok [5]
    ∧ ¬ ([5] : List Int).length = gEx.outputDimensionality := by
  refine ⟨by decide, by decide, by decide⟩

/-- C7 (amended): on success the client returns the provider's vector
unchanged and non-empty; the request it sends does carry the configured
output dimension (default 1024 at construction), so the result has the
configured length exactly when the provider honors the requested
dimensionality — the client itself does not verify it. -/
theorem C7_embed_dimension (g : GeminiEmbeddings) (provider : Provider)
    (text : String) (v : List Int)
    (h : embedQuery g provider text = .ok v) :
    v ≠ []
    ∧ (provider (mkEmbedRequest g text)).data.embedding = some { values := v }
    ∧ (mkEmbedRequest g text).outputDimensionality = g.outputDimensionality
    ∧ (∀ w, (provider (mkEmbedRequest g text)).data.embedding
          = some { values := w } → w.length = g.outputDimensionality →
        v.length = g.outputDimensionality)
    ∧ (∀ key mn, (GeminiEmbeddings.create key mn none).outputDimensionality
        = 1024) := by
  obtain ⟨h1, _, _, h4⟩ := embedQuery_ok_val g provider text v h
  refine ⟨h1, h4, rfl, ?_, fun key mn => rfl⟩
  intro w hw hwl
  have hvw : ({ values := v } : GeminiEmbedding) = { values := w } :=
    Option.some.inj (h4.symm.trans hw)
  have hvw2 : v = w := congrArg GeminiEmbedding.values hvw
  rw [hvw2]
  exact hwl

/-- Witness for C7 at a concrete successful call. -/
theorem C7_witness :
    ([1, 2, 3] : List Int) ≠ []
    ∧ (provGood (mkEmbedRequest gEx "hi")).data.embedding
        = some { values := [1, 2, 3] } := by
  have h := C7_embed_dimension gEx provGood "hi" [1, 2, 3] (by decide)
  exact ⟨h.1, h.2.1⟩

/-- C8 (confirmed): for every document whose pass succeeds with `n` chunks,
the ledger record written by the run carries `chunkCount = n`; the upserted
batches are non-empty, at most `BATCH_SIZE` (20) records each, and their
concatenation is exactly the expected record list — one record per chunk,
in order, with consecutive ids `vectorId name 0 .. vectorId name (n-1)` and
the chunk texts in metadata — so every chunk appears in exactly one
upserted record. -/
theorem C8_batched_upsert (g : GeminiEmbeddings) (env : IngestEnv)
    (pdfFiles : List String) (tracker0 : Tracker) (name : String)
    (n p : Nat)
    (hok : (processDoc g env name).1 = .ok n p)
    (hmem : name ∈ pdfFiles.filter (shouldIngest tracker0 env)) :
    jsGet (ingestAllPdfs g env pdfFiles tracker0).tracker name
      = some (mkIngested env name n p)
    ∧ (mkIngested env name n p).chunkCount = n
    ∧ ∃ rawText, env.extract name = .ok (rawText, p)
      ∧ n = (chunksOf env rawText).length
      ∧ (∀ b ∈ upsertBatchesOf (processDoc g env name).2,
          0 < b.length ∧ b.length ≤ BATCH_SIZE)
      ∧ (upsertBatchesOf (processDoc g env name).2).flatten
          = expectedRecords g env name (chunksOf env rawText)
      ∧ ((upsertBatchesOf (processDoc g env name).2).flatten).map
            (fun r => r.id)
          = (List.range n).map (fun j => vectorId name j)
      ∧ ((upsertBatchesOf (processDoc g env name).2).flatten).map
            (fun r => metaStr r.metadata "text")
          = (chunksOf env rawText).map some := by
  have hpair : processDoc g env name
      = (DocOutcome.ok n p, (processDoc g env name).2) := by
    rw [← hok]
  obtain ⟨rawText, hx, hn, hpos, hlen, hflat⟩ :=
    processDoc_ok_spec g env name n p (processDoc g env name).2 hpair
  refine ⟨?_, rfl, rawText, hx, hn, ?_, hflat, ?_, ?_⟩
  · unfold ingestAllPdfs
    exact ingest_foldl_tracker_ok g env name n p hok _ _ (Or.inl hmem)
  · intro b hb
    have hbl : b.length ∈ (batches (chunksOf env rawText)).map List.length := by
      rw [← hlen]
      exact List.mem_map_of_mem List.length hb
    rcases List.mem_map.mp hbl with ⟨b2, hb2, hb2l⟩
    rw [← hb2l]
    exact batches_mem _ b2 hb2
  · rw [hflat]
    unfold expectedRecords
    rw [mkRecords_ids, List.length_map, ← hn]
    apply List.map_congr_left
    intro j _
    rw [Nat.zero_add]
  · rw [hflat]
    unfold expectedRecords
    rw [mkRecords_texts, List.map_map]
    rfl

/-- Witness for C8: a two-chunk document ingested successfully records
`chunkCount = 2` in the ledger. -/
theorem C8_witness :
    jsGet (ingestAllPdfs gEx envOkEx ["doc.pdf"] []).tracker "doc.pdf"
      = some (mkIngested envOkEx "doc.pdf" 2 3) :=
  (C8_batched_upsert gEx envOkEx ["doc.pdf"] [] "doc.pdf" 2 3
    (by decide) (by decide)).1

/-- C9 (confirmed): for a valid question with zero matches the route
replies with the explicit no-content result — HTTP 200, `success`, no
error field, `retrievedChunks = 0` and an empty source list — rather than
throwing or reporting a failure. -/
theorem C9_no_content (cfg : QueryConfig) (q : String)
    (generate : String → String)
    (hg : cfg.googleApiKey = true) (hpk : cfg.pineconeApiKey = true)
    (hpi : cfg.pineconeIndex = true)
    (hq1 : ¬ jsTrim q = "") (hq2 : ¬ 2000 < (jsTrim q).length) :
    postQuery cfg (some q) [] generate = noContentResponse
    ∧ noContentResponse.status = 200
    ∧ noContentResponse.success = true
    ∧ noContentResponse.error = none
    ∧ noContentResponse.retrievedChunks = some 0
    ∧ noContentResponse.sources = [] := by
  refine ⟨?_, rfl, rfl, rfl, rfl, rfl⟩
  unfold postQuery
  simp only []
  rw [if_neg hq1, if_neg hq2, if_neg (by simp [hg]),
    if_neg (by simp [hpk, hpi])]
  rfl

/-- Witness for C9 at a concrete question. -/
theorem C9_witness :
    postQuery ⟨true, true, true⟩
        (some "How many vacation days do I get?") [] (fun _ => "")
      = noContentResponse :=
  (C9_no_content ⟨true, true, true⟩ "How many vacation days do I get?"
    (fun _ => "") rfl rfl rfl (by decide) (by decide)).1

/-- C10 (confirmed): ingestion stores the timestamp under the metadata key
`ingestedAt`, while the query route reads the key `uploadedAt` when
building source descriptors; since ingestion never writes `uploadedAt`,
every descriptor built from an ingested record has `uploadedAt = none`
even though `source` and `chunkIndex` are populated from the same
metadata — so for every response built from matches whose metadata comes
from ingested records, the `uploadedAt` field of every returned source is
undefined. -/
theorem C10_uploadedAt_never_surfaced (name : String) (idx : Nat)
    (text : String) (v : List Int) (total : Nat) (ts : String)
    (cfg : QueryConfig) (q : String) (ms : List QueryMatch)
    (generate : String → String)
    (hg : cfg.googleApiKey = true) (hpk : cfg.pineconeApiKey = true)
    (hpi : cfg.pineconeIndex = true)
    (hq1 : ¬ jsTrim q = "") (hq2 : ¬ 2000 < (jsTrim q).length)
    (hms : ms ≠ [])
    (hstored : ∀ m ∈ ms, ∃ nm i t w tot its,
        m.metadata = some (mkRecord nm i t w tot its).metadata) :
    metaStr (mkRecord name idx text v total ts).metadata "ingestedAt"
        = some ts
    ∧ metaStr (mkRecord name idx text v total ts).metadata "uploadedAt"
        = none
    ∧ descOf { metadata := some (mkRecord name idx text v total ts).metadata }
        = { source := some name, chunkIndex := some idx, uploadedAt := none }
    ∧ ∀ d ∈ (postQuery cfg (some q) ms generate).sources,
        d.uploadedAt = none ∧ d.source ≠ none ∧ d.chunkIndex ≠ none := by
  have hdesc : ∀ (nm : String) (i : Nat) (t : String) (w : List Int)
      (tot : Nat) (its : String),
      descOf { metadata := some (mkRecord nm i t w tot its).metadata }
        = { source := some nm, chunkIndex := some i, uploadedAt := none } :=
    fun _ _ _ _ _ _ => rfl
  refine ⟨rfl, rfl, rfl, ?_⟩
  intro d hd
  rw [postQuery_success cfg q ms generate hg hpk hpi hq1 hq2 hms] at hd
  rcases mem_uniqueSourcesOf ms d hd with ⟨m, hm, hmd⟩
  rcases hstored m hm with ⟨nm, i, t, w, tot, its, hmmeta⟩
  have : descOf m
      = { source := some nm, chunkIndex := some i, uploadedAt := none } := by
    unfold descOf
    rw [hmmeta]
    exact congrArg _ rfl
  rw [← hmd, this]
  exact ⟨rfl, fun hc => Option.noConfusion hc, fun hc => Option.noConfusion hc⟩

/-- Witness for C10 on the example matches: every returned source has
`uploadedAt = none`. -/
theorem C10_witness :
    metaStr (mkRecord "a.pdf" 0 "t" [1] 2 "ts").metadata "uploadedAt" = none
    ∧ ∀ d ∈ (postQuery ⟨true, true, true⟩ (some "q") exMatches
        (fun _ => "")).sources,
        d.uploadedAt = none ∧ d.source ≠ none ∧ d.chunkIndex ≠ none := by
  have h := C10_uploadedAt_never_surfaced "a.pdf" 0 "t" [1] 2 "ts"
    ⟨true, true, true⟩ "q" exMatches (fun _ => "") rfl rfl rfl
    (by decide) (by decide) (by decide)
    (by
      intro m hm
      simp only [exMatches, List.mem_cons, List.not_mem_nil, or_false] at hm
      rcases hm with rfl | rfl | rfl
      · exact ⟨"a.pdf", 0, "text-" ++ Nat.repr 0, [1], 2,
          "2026-01-01T00:00:00.000Z", rfl⟩
      · exact ⟨"a.pdf", 1, "text-" ++ Nat.repr 1, [1], 2,
          "2026-01-01T00:00:00.000Z", rfl⟩
      · exact ⟨"b.pdf", 0, "text-" ++ Nat.repr 0, [1], 2,
          "2026-01-01T00:00:00.000Z", rfl⟩)
  exact ⟨h.2.1, h.2.2.2⟩
